import Mathlib

set_option maxRecDepth 8000

/-!
Shallow embedding of libpqxx's copy-out text decoder
(`src/stream_from.cxx`): the per-encoding glyph boundary scanners
(`next_seq<encoding_group::...>`) and the row decoder
(`pqxx::stream_from::parse_line` / `read_row`).

Buffers are `List Nat` of byte values; `buffer_len` is the list length.
A scanner returns `SeqResult.eof` for `std::string::npos`,
`SeqResult.ok e` for a returned glyph-end offset, and
`SeqResult.err name start count` for a call to
`throw_for_encoding_error(name, buffer, start, count)`.
-/

/-- Source helper `between_inc`: does `value` lie between `bottom` and
`top`, inclusive? -/
def between_inc (value bottom top : Nat) : Bool :=
  decide (bottom ≤ value) && decide (value ≤ top)

/-- Source helper `get_byte`: extract the byte at `offset`.  An
out-of-range read (undefined behaviour in the C++) defaults to 0 in this
total model; where a claim is about the reads themselves, the offsets
actually inspected are tracked by a separate instrumented definition. -/
def get_byte (buffer : List Nat) (offset : Nat) : Nat :=
  buffer.getD offset 0

/-- Outcome of one `next_seq` scanner call. -/
inductive SeqResult where
  | eof : SeqResult
  | ok : Nat → SeqResult
  | err : String → Nat → Nat → SeqResult
  deriving DecidableEq

/-- `next_seq<encoding_group::MONOBYTE>`: every byte is its own glyph. -/
def next_seq_monobyte (buffer : List Nat) (start : Nat) : SeqResult :=
  if start ≥ buffer.length then .eof
  else .ok (start + 1)

/-- `next_seq<encoding_group::GB18030>`, translated line by line from the
source (note: the source returns `start + 1` for first bytes in
[0x80,0xff] and treats everything below 0x80 as a multi-byte lead). -/
def next_seq_gb18030 (buffer : List Nat) (start : Nat) : SeqResult :=
  if start ≥ buffer.length then .eof
  else
    let first_byte := get_byte buffer start
    if between_inc first_byte 0x80 0xff then .ok (start + 1)
    else if start + 2 > buffer.length then
      .err "GB18030" start (buffer.length - start)
    else
      let second_byte := get_byte buffer (start + 1)
      if between_inc second_byte 0x40 0xfe then
        (if second_byte == 0x7f then .err "GB18030" start 2
         else .ok (start + 2))
      else if start + 4 > buffer.length then
        .err "GB18030" start (buffer.length - start)
      else if between_inc second_byte 0x30 0x39 &&
              between_inc (get_byte buffer (start + 2)) 0x81 0xfe &&
              between_inc (get_byte buffer (start + 3)) 0x30 0x39 then
        .ok (start + 4)
      else .err "GB18030" start 4

/-- `next_seq<encoding_group::JOHAB>`, translated line by line from the
source (note: the source's `second_byte` is read with
`get_byte(buffer, start)`, i.e. at offset `start`, not `start + 1`). -/
def next_seq_johab (buffer : List Nat) (start : Nat) : SeqResult :=
  if start ≥ buffer.length then .eof
  else
    let first_byte := get_byte buffer start
    if first_byte < 0x80 then .ok (start + 1)
    else if start + 2 > buffer.length then .err "JOHAB" start 1
    else
      let second_byte := get_byte buffer start
      if (between_inc first_byte 0x84 0xd3 &&
            (between_inc second_byte 0x41 0x7e ||
             between_inc second_byte 0x81 0xfe)) ||
         ((between_inc first_byte 0xd8 0xde ||
           between_inc first_byte 0xe0 0xf9) &&
            (between_inc second_byte 0x31 0x7e ||
             between_inc second_byte 0x91 0xfe)) then
        .ok (start + 2)
      else .err "JOHAB" start 2

/-- `next_seq<encoding_group::EUC_TW>`, translated line by line from the
source (note: every `throw_for_encoding_error` call in this
specialization passes the string "EUC_KR" as the encoding name). -/
def next_seq_euc_tw (buffer : List Nat) (start : Nat) : SeqResult :=
  if start ≥ buffer.length then .eof
  else
    let first_byte := get_byte buffer start
    if first_byte < 0x80 then .ok (start + 1)
    else if start + 2 > buffer.length then .err "EUC_KR" start 1
    else
      let second_byte := get_byte buffer (start + 1)
      if between_inc first_byte 0xa1 0xfe then
        (if !(between_inc second_byte 0xa1 0xfe) then .err "EUC_KR" start 2
         else .ok (start + 2))
      else if first_byte ≠ 0x8e ∨ start + 4 > buffer.length then
        .err "EUC_KR" start 1
      else if between_inc second_byte 0xa1 0xb0 &&
              between_inc (get_byte buffer (start + 2)) 0xa1 0xfe &&
              between_inc (get_byte buffer (start + 3)) 0xa1 0xfe then
        .ok (start + 4)
      else .err "EUC_KR" start 4

/-- `next_seq<encoding_group::MULE_INTERNAL>`, translated line by line
from the source.  The four-byte validation compares
`get_byte(buffer, start + 2)` and `get_byte(buffer, start + 4)` against
0xa0 — offset `start + 4`, exactly as in the source. -/
def next_seq_mule_internal (buffer : List Nat) (start : Nat) : SeqResult :=
  if start ≥ buffer.length then .eof
  else
    let first_byte := get_byte buffer start
    if first_byte < 0x80 then .ok (start + 1)
    else if start + 2 > buffer.length then .err "MULE_INTERNAL" start 1
    else
      let second_byte := get_byte buffer (start + 1)
      if between_inc first_byte 0x81 0x8d && decide (0xa0 ≤ second_byte) then
        .ok (start + 2)
      else if start + 3 > buffer.length then .err "MULE_INTERNAL" start 2
      else if ((first_byte == 0x9a && between_inc second_byte 0xa0 0xdf) ||
               (first_byte == 0x9b && between_inc second_byte 0xe0 0xef) ||
               (between_inc first_byte 0x90 0x99 &&
                 decide (0xa0 ≤ second_byte))) &&
              decide (0xa0 ≤ second_byte) then
        .ok (start + 3)
      else if start + 4 > buffer.length then .err "MULE_INTERNAL" start 3
      else if ((first_byte == 0x9c && between_inc second_byte 0xf0 0xf4) ||
               (first_byte == 0x9d && between_inc second_byte 0xf5 0xfe)) &&
              decide (0xa0 ≤ get_byte buffer (start + 2)) &&
              decide (0xa0 ≤ get_byte buffer (start + 4)) then
        .ok (start + 4)
      else .err "MULE_INTERNAL" start 4

/-- The buffer offsets that `next_seq<encoding_group::MULE_INTERNAL>`
passes to `get_byte` during validation, in inspection order, mirroring
the source's control flow including the short-circuit evaluation of the
four-byte condition (`and` only evaluates its right operand when the
left one held).  Offsets read by `throw_for_encoding_error` while
formatting its diagnostic are not included. -/
def next_seq_mule_internal_reads (buffer : List Nat) (start : Nat) :
    List Nat :=
  if start ≥ buffer.length then []
  else
    let first_byte := get_byte buffer start
    if first_byte < 0x80 then [start]
    else if start + 2 > buffer.length then [start]
    else
      let second_byte := get_byte buffer (start + 1)
      if between_inc first_byte 0x81 0x8d && decide (0xa0 ≤ second_byte) then
        [start, start + 1]
      else if start + 3 > buffer.length then [start, start + 1]
      else if ((first_byte == 0x9a && between_inc second_byte 0xa0 0xdf) ||
               (first_byte == 0x9b && between_inc second_byte 0xe0 0xef) ||
               (between_inc first_byte 0x90 0x99 &&
                 decide (0xa0 ≤ second_byte))) &&
              decide (0xa0 ≤ second_byte) then
        [start, start + 1]
      else if start + 4 > buffer.length then [start, start + 1]
      else
        [start, start + 1] ++
          (if (first_byte == 0x9c && between_inc second_byte 0xf0 0xf4) ||
              (first_byte == 0x9d && between_inc second_byte 0xf5 0xfe) then
            [start + 2] ++
              (if decide (0xa0 ≤ get_byte buffer (start + 2)) then
                [start + 4]
              else [])
          else [])

/-- Claim C1: the spec requires every byte below 0x80 to be a complete
one-byte glyph under every encoding group, GB18030 included.  The
GB18030 scanner in the source violates this: on the ASCII buffer
"ab" ([0x61, 0x62]) it returns offset 2 (a two-byte glyph) instead of 1,
and on the one-byte ASCII buffer "a" it throws an encoding error instead
of returning 1. -/
theorem gb18030_ascii_not_single_byte :
    next_seq_gb18030 [0x61, 0x62] 0 = .ok 2 ∧
    next_seq_gb18030 [0x61] 0 = .err "GB18030" 0 1 := by
  constructor <;> rfl

/-- Claim C2: the spec requires the scanner never to read at an offset
`≥ buffer_len`.  The MULE_INTERNAL four-byte validation in the source
inspects `get_byte(buffer, start + 4)`: on the buffer
[0x9C, 0xF0, 0xA0, 0xA0] (length 4) with start 0 it reads offset 4,
which equals `buffer_len`. -/
theorem mule_internal_reads_at_buffer_len :
    ([0x9C, 0xF0, 0xA0, 0xA0] : List Nat).length ∈
      next_seq_mule_internal_reads [0x9C, 0xF0, 0xA0, 0xA0] 0 := by
  decide

/-- Claim C3: the claim says a JOHAB two-byte sequence's trailing byte is
validated at offset `start + 1`, so a buffer whose second byte is outside
JOHAB's legal trailing ranges makes the scanner raise.  The source reads
its `second_byte` at offset `start` instead, so on [0x84, 0x20] — whose
actual second byte 0x20 lies outside both legal trailing ranges
[0x41,0x7e] and [0x81,0xfe] — it returns 2 without raising. -/
theorem johab_accepts_illegal_trailing_byte :
    next_seq_johab [0x84, 0x20] 0 = .ok 2 := by
  rfl

/-- Claim C4: the claim says malformed EUC_TW input raises an error
naming EUC_TW.  Every error path of the source's EUC_TW scanner names
"EUC_KR" instead, both for a truncated sequence ([0xA1], length 1) and
for an illegal trailing byte ([0xA1, 0x00]). -/
theorem euc_tw_error_names_euc_kr :
    next_seq_euc_tw [0xA1] 0 = .err "EUC_KR" 0 1 ∧
    next_seq_euc_tw [0xA1, 0x00] 0 = .err "EUC_KR" 0 2 := by
  constructor <;> rfl

/-!
Row decoder: `pqxx::stream_from::parse_line`.

The raw line is a `List Nat` of bytes.  The row buffer `m_row` is
modelled as the list of bytes written so far, so the write pointer is
its length; `field_begin` is `none` exactly when the source sets it to
`nullptr` (null field), otherwise `some` of the offset into the row
buffer.  A field view (`zview`) is an (offset, length) span into the row
buffer, or `none` for a SQL NULL field.
-/

/-- A field view: `none` is the SQL NULL marker, `some (o, l)` a span of
`l` bytes at offset `o` in the row buffer. -/
abbrev FieldSpan := Option (Nat × Nat)

/-- Outcome of `parse_line`: `ok` with the final field views and row
buffer, or `fail` (a thrown `failure`) with the field views pushed and
the row bytes written before the throw. -/
inductive ParseOut where
  | ok : List FieldSpan → List Nat → ParseOut
  | fail : List FieldSpan → List Nat → ParseOut
  deriving DecidableEq

/-- The escape switch of `parse_line` for a byte that is not `N`:
`b`, `f`, `n`, `r`, `t`, `v` yield the corresponding control byte; any
other byte is emitted literally ("self-escaped"). -/
def escape_control (c : Nat) : Nat :=
  if c = 0x62 then 0x08        -- 'b' → backspace
  else if c = 0x66 then 0x0c   -- 'f' → form feed
  else if c = 0x6e then 0x0a   -- 'n' → line feed
  else if c = 0x72 then 0x0d   -- 'r' → carriage return
  else if c = 0x74 then 0x09   -- 't' → horizontal tab
  else if c = 0x76 then 0x0b   -- 'v' → vertical tab
  else c

/-- The main loop of `parse_line`, fuel-indexed.  `read` is the current
offset into `line`; `row` the bytes written so far (`write` is
`row.length`); `fb` the `field_begin` pointer (`none` = `nullptr`);
`fields` the views pushed so far.  One fuel unit is spent per loop
iteration; the C++ loop diverges when the scanner fails to make
progress, which surfaces here as running out of fuel (`fail`).  A
scanner result of `eof` while `read < line.length` (impossible for the
scanners in the source) is likewise mapped to `fail`. -/
def parse_loop (scan : List Nat → Nat → SeqResult) (line : List Nat) :
    Nat → Nat → List Nat → Option Nat → List FieldSpan → ParseOut
  | 0, _, row, _, fields => .fail fields row
  | fuel + 1, read, row, fb, fields =>
    if read < line.length then
      match scan line read with
      | .eof => .fail fields row
      | .err _ _ _ => .fail fields row
      | .ok e =>
        if e = read + 1 then
          -- Single-byte character.
          let c := get_byte line read
          if c = 0x09 then
            -- Field separator: end the field.
            match fb with
            | none =>
              parse_loop scan line fuel (read + 1) row (some row.length)
                (fields ++ [none])
            | some b =>
              parse_loop scan line fuel (read + 1) (row ++ [0])
                (some (row.length + 1)) (fields ++ [some (b, row.length - b)])
          else if c = 0x5c then
            -- Escape sequence.
            if read + 1 ≥ line.length then .fail fields row
            else
              let c2 := get_byte line (read + 1)
              if c2 = 0x4e then
                -- Null value: throws unless write == field_begin.
                if fb = some row.length then
                  parse_loop scan line fuel (read + 2) row none fields
                else .fail fields row
              else
                parse_loop scan line fuel (read + 2)
                  (row ++ [escape_control c2]) fb fields
          else
            parse_loop scan line fuel (read + 1) (row ++ [c]) fb fields
        else
          -- Multi-byte sequence: append its bytes verbatim.
          parse_loop scan line fuel e
            (row ++ ((line.drop read).take (e - read))) fb fields
    else
      -- End of line: end the last field.
      match fb with
      | none => .ok (fields ++ [none]) row
      | some b => .ok (fields ++ [some (b, row.length - b)]) (row ++ [0])

/-- `pqxx::stream_from::parse_line` on one raw line, for a given glyph
scanner.  The row buffer starts empty (the resize to
`line_size + 1` reserves capacity; this model records the bytes actually
written), `read` at offset 0, `field_begin` at the buffer start.  The
fuel `line.length + 1` is enough for every scanner that advances. -/
def parse_line (scan : List Nat → Nat → SeqResult) (line : List Nat) :
    ParseOut :=
  parse_loop scan line (line.length + 1) 0 [] (some 0) []

/-- Materialize one field view against the final row buffer. -/
def field_bytes (row : List Nat) (s : FieldSpan) : Option (List Nat) :=
  s.map (fun p => (row.drop p.1).take p.2)

/-- The fields of one parsed row as byte lists (`none` = SQL NULL), or
`none` if `parse_line` threw. -/
def row_fields (scan : List Nat → Nat → SeqResult) (line : List Nat) :
    Option (List (Option (List Nat))) :=
  match parse_line scan line with
  | .ok fields row => some (fields.map (field_bytes row))
  | .fail _ _ => none

/-- Number of bytes written into the row buffer, also when the parse
ended in a throw. -/
def ParseOut.rowLen : ParseOut → Nat
  | .ok _ row => row.length
  | .fail _ row => row.length

/-- The parse loop under the MONOBYTE scanner, viewed on the remaining
suffix of the line.  `parse_loop_mono` proves it equal to
`parse_loop next_seq_monobyte` given enough fuel; the row-decoder
theorems reason on this structural form. -/
def mono_loop : List Nat → List Nat → Option Nat → List FieldSpan → ParseOut
  | [], row, fb, fields =>
    (match fb with
     | none => .ok (fields ++ [none]) row
     | some b => .ok (fields ++ [some (b, row.length - b)]) (row ++ [0]))
  | c :: rest, row, fb, fields =>
    if c = 0x09 then
      (match fb with
       | none => mono_loop rest row (some row.length) (fields ++ [none])
       | some b =>
         mono_loop rest (row ++ [0]) (some (row.length + 1))
           (fields ++ [some (b, row.length - b)]))
    else if c = 0x5c then
      (match rest with
       | [] => .fail fields row
       | c2 :: rest2 =>
         if c2 = 0x4e then
           (if fb = some row.length then mono_loop rest2 row none fields
            else .fail fields row)
         else mono_loop rest2 (row ++ [escape_control c2]) fb fields)
    else mono_loop rest (row ++ [c]) fb fields

/-- Bridge: with enough fuel, the fuel-indexed loop under the MONOBYTE
scanner computes `mono_loop` of the remaining line suffix. -/
theorem parse_loop_mono (ln : List Nat) :
    ∀ fuel read row fb fields, ln.length - read < fuel →
      parse_loop next_seq_monobyte ln fuel read row fb fields =
        mono_loop (ln.drop read) row fb fields := by
  intro fuel
  induction fuel with
  | zero => intro read row fb fields h; omega
  | succ fuel ih =>
    intro read row fb fields h
    by_cases hr : read < ln.length
    · have hs : next_seq_monobyte ln read = .ok (read + 1) := by
        unfold next_seq_monobyte
        rw [if_neg (by omega)]
      have hd : ln.drop read = ln[read] :: ln.drop (read + 1) :=
        List.drop_eq_getElem_cons hr
      have hgb : get_byte ln read = ln[read] :=
        List.getD_eq_getElem ln 0 hr
      rw [hd, mono_loop.eq_def]
      dsimp only
      simp only [parse_loop, if_pos hr, hs, hgb, ite_true, eq_self_iff_true]
      by_cases h9 : ln[read] = 0x09
      · rw [if_pos h9, if_pos h9]
        cases fb with
        | none =>
          exact ih (read + 1) row (some row.length) (fields ++ [none])
            (by omega)
        | some b =>
          exact ih (read + 1) (row ++ [0]) (some (row.length + 1))
            (fields ++ [some (b, row.length - b)]) (by omega)
      · rw [if_neg h9, if_neg h9]
        by_cases h5 : ln[read] = 0x5c
        · rw [if_pos h5, if_pos h5]
          by_cases he : read + 1 < ln.length
          · have hd2 : ln.drop (read + 1) =
                ln[read + 1] :: ln.drop (read + 2) :=
              List.drop_eq_getElem_cons he
            have hgb2 : get_byte ln (read + 1) = ln[read + 1] :=
              List.getD_eq_getElem ln 0 he
            rw [if_neg (show ¬ read + 1 ≥ ln.length by omega), hd2]
            dsimp only
            rw [hgb2]
            by_cases hn : ln[read + 1] = 0x4e
            · rw [if_pos hn, if_pos hn]
              by_cases hfb : fb = some row.length
              · rw [if_pos hfb, if_pos hfb]
                exact ih (read + 2) row none fields (by omega)
              · rw [if_neg hfb, if_neg hfb]
            · rw [if_neg hn, if_neg hn]
              exact ih (read + 2) (row ++ [escape_control ln[read + 1]])
                fb fields (by omega)
          · have hd2 : ln.drop (read + 1) = [] :=
              List.drop_eq_nil_of_le (by omega)
            rw [if_pos (show read + 1 ≥ ln.length by omega), hd2]
        · rw [if_neg h5, if_neg h5]
          exact ih (read + 1) (row ++ [ln[read]]) fb fields (by omega)
    · have hd : ln.drop read = [] := List.drop_eq_nil_of_le (by omega)
      rw [hd, mono_loop.eq_def]
      dsimp only
      simp only [parse_loop, if_neg hr]

/-- All `some` spans in `fields` end at or before offset `n`. -/
def spans_le (fields : List FieldSpan) (n : Nat) : Prop :=
  ∀ o l, some (o, l) ∈ fields → o + l ≤ n

theorem spans_le_nil (n : Nat) : spans_le [] n := by
  intro o l h
  simp at h

theorem spans_le_mono {fields : List FieldSpan} {m n : Nat}
    (h : spans_le fields m) (hmn : m ≤ n) : spans_le fields n := by
  intro o l hm
  exact le_trans (h o l hm) hmn

/-- Appending bytes to the row buffer does not change the bytes of a
span that lies inside the old buffer. -/
theorem field_bytes_append (row tail : List Nat) (o l : Nat)
    (h : o + l ≤ row.length) :
    field_bytes (row ++ tail) (some (o, l)) = field_bytes row (some (o, l)) := by
  simp only [field_bytes, Option.map_some']
  rw [List.drop_append_of_le_length (by omega),
    List.take_append_of_le_length (by simp; omega)]

/-- Materializing a list of in-bounds spans is unchanged by appending to
the row buffer. -/
theorem map_field_bytes_append (fields : List FieldSpan)
    (row tail : List Nat) (h : spans_le fields row.length) :
    fields.map (field_bytes (row ++ tail)) = fields.map (field_bytes row) := by
  induction fields with
  | nil => rfl
  | cons f fs ih =>
    have hf : field_bytes (row ++ tail) f = field_bytes row f := by
      cases f with
      | none => rfl
      | some p =>
        exact field_bytes_append row tail p.1 p.2 (h p.1 p.2 (by simp))
    simp only [List.map_cons, hf,
      ih (fun o l hm => h o l (List.mem_cons_of_mem f hm))]

/-- Modelled from the spec: the tab-separated runs of a raw line ("one
Field View per tab-separated run, in left-to-right order").  Reference
side of claim C5's comparison; always nonempty. -/
def tab_split : List Nat → List (List Nat)
  | [] => [[]]
  | c :: rest =>
    if c = 0x09 then [] :: tab_split rest
    else
      match tab_split rest with
      | [] => [[c]]
      | f :: fs => (c :: f) :: fs

/-- Unfolding of `tab_split` on a nonempty line. -/
theorem tab_split_cons (c : Nat) (rest : List Nat) :
    tab_split (c :: rest) =
      if c = 0x09 then [] :: tab_split rest
      else
        match tab_split rest with
        | [] => [[c]]
        | f :: fs => (c :: f) :: fs := by
  rw [tab_split.eq_def]

theorem tab_split_ne_nil (l : List Nat) : tab_split l ≠ [] := by
  cases l with
  | nil => simp [tab_split]
  | cons c rest =>
    rw [tab_split_cons]
    by_cases h9 : c = 0x09
    · simp [h9]
    · rw [if_neg h9]
      cases tab_split rest <;> simp

/-- Prepend already-accumulated bytes of the currently open field to the
first of the remaining runs. -/
def prepend_head (p : List Nat) : List (List Nat) → List (List Nat)
  | [] => [p]
  | f :: fs => (p ++ f) :: fs

/-- Unfolding of `mono_loop` at the end of the line. -/
theorem mono_loop_nil (row : List Nat) (fb : Option Nat)
    (fields : List FieldSpan) :
    mono_loop [] row fb fields =
      (match fb with
       | none => .ok (fields ++ [none]) row
       | some b =>
         .ok (fields ++ [some (b, row.length - b)]) (row ++ [0])) := by
  rw [mono_loop.eq_def]

/-- Unfolding of `mono_loop` on one more byte. -/
theorem mono_loop_cons (c : Nat) (rest row : List Nat) (fb : Option Nat)
    (fields : List FieldSpan) :
    mono_loop (c :: rest) row fb fields =
      (if c = 0x09 then
        (match fb with
         | none => mono_loop rest row (some row.length) (fields ++ [none])
         | some b =>
           mono_loop rest (row ++ [0]) (some (row.length + 1))
             (fields ++ [some (b, row.length - b)]))
      else if c = 0x5c then
        (match rest with
         | [] => .fail fields row
         | c2 :: rest2 =>
           if c2 = 0x4e then
             (if fb = some row.length then mono_loop rest2 row none fields
              else .fail fields row)
           else mono_loop rest2 (row ++ [escape_control c2]) fb fields)
      else mono_loop rest (row ++ [c]) fb fields) := by
  rw [mono_loop.eq_def]

/-- Running `mono_loop` over a suffix with no backslash byte closes the
open field at each tab and at the end of the line: the materialized
fields are the already-pushed ones followed by the tab-separated runs,
the first run glued onto the bytes already accumulated for the open
field. -/
theorem mono_loop_plain (suf : List Nat) :
    0x5c ∉ suf →
    ∀ row b fields, b ≤ row.length → spans_le fields row.length →
    ∃ F R, mono_loop suf row (some b) fields = .ok F R ∧
      F.map (field_bytes R) =
        fields.map (field_bytes row) ++
          (prepend_head (row.drop b) (tab_split suf)).map some := by
  induction suf with
  | nil =>
    intro _ row b fields hb hv
    refine ⟨fields ++ [some (b, row.length - b)], row ++ [0],
      by rw [mono_loop_nil], ?_⟩
    rw [List.map_append, map_field_bytes_append fields row [0] hv]
    simp only [tab_split, prepend_head, List.append_nil]
    congr 1
    simp only [field_bytes, Option.map_some', List.map_cons, List.map_nil]
    rw [List.drop_append_of_le_length hb]
    rw [show row.length - b = (row.drop b).length by simp]
    rw [List.take_left]
  | cons c rest ih =>
    intro h5c row b fields hb hv
    have h5r : 0x5c ∉ rest := fun hm => h5c (List.mem_cons_of_mem c hm)
    have h5 : c ≠ 0x5c := fun hc =>
      h5c (by rw [hc]; exact List.mem_cons_self _ _)
    obtain ⟨f, fs, hts⟩ : ∃ f fs, tab_split rest = f :: fs := by
      cases hts : tab_split rest with
      | nil => exact absurd hts (tab_split_ne_nil rest)
      | cons f fs => exact ⟨f, fs, rfl⟩
    by_cases h9 : c = 0x09
    · obtain ⟨F, R, hF, hmap⟩ :=
        ih h5r (row ++ [0]) (row.length + 1)
          (fields ++ [some (b, row.length - b)])
          (by simp)
          (by
            intro o l hm
            simp only [List.mem_append, List.mem_singleton] at hm
            cases hm with
            | inl hm =>
              have := hv o l hm
              simp
              omega
            | inr hm =>
              cases hm
              simp
              omega)
      refine ⟨F, R, ?_, ?_⟩
      · rw [mono_loop_cons, if_pos h9]
        exact hF
      · rw [hmap]
        have hdrop : (row ++ [0]).drop (row.length + 1) = [] :=
          List.drop_eq_nil_of_le (by simp)
        rw [hdrop, List.map_append, map_field_bytes_append fields row [0] hv]
        rw [tab_split_cons, if_pos h9, hts]
        simp only [prepend_head, List.nil_append, List.append_nil]
        simp only [field_bytes, Option.map_some', List.map_cons, List.map_nil]
        rw [List.drop_append_of_le_length hb]
        rw [show row.length - b = (row.drop b).length by simp]
        rw [List.take_left]
        simp
    · obtain ⟨F, R, hF, hmap⟩ :=
        ih h5r (row ++ [c]) b fields
          (by simp; omega)
          (spans_le_mono hv (by simp))
      refine ⟨F, R, ?_, ?_⟩
      · rw [mono_loop_cons, if_neg h9, if_neg h5]
        exact hF
      · rw [hmap, map_field_bytes_append fields row [c] hv,
          List.drop_append_of_le_length hb]
        rw [tab_split_cons, if_neg h9, hts]
        simp [prepend_head]

/-- A run of bytes containing neither tab nor backslash is copied
verbatim into the row buffer, leaving the open-field state unchanged. -/
theorem mono_loop_seek (l : List Nat) :
    0x09 ∉ l → 0x5c ∉ l →
    ∀ suf row fb fields,
      mono_loop (l ++ suf) row fb fields =
        mono_loop suf (row ++ l) fb fields := by
  induction l with
  | nil =>
    intro _ _ suf row fb fields
    simp
  | cons c rest ih =>
    intro h9l h5l suf row fb fields
    have h9 : c ≠ 0x09 := fun hc =>
      h9l (by rw [hc]; exact List.mem_cons_self _ _)
    have h5 : c ≠ 0x5c := fun hc =>
      h5l (by rw [hc]; exact List.mem_cons_self _ _)
    have h9r : 0x09 ∉ rest := fun hm => h9l (List.mem_cons_of_mem c hm)
    have h5r : 0x5c ∉ rest := fun hm => h5l (List.mem_cons_of_mem c hm)
    rw [List.cons_append, mono_loop_cons, if_neg h9, if_neg h5]
    rw [ih h9r h5r suf (row ++ [c]) fb fields]
    rw [List.append_assoc, List.singleton_append]

/-- A line whose final byte is a backslash that begins an escape (no
earlier backslash exists to consume it) dies in the
"Row ends in backslash" branch, whatever came before. -/
theorem mono_loop_trailing_backslash (l : List Nat) :
    0x5c ∉ l → ∀ row b fields,
    ∃ F R, mono_loop (l ++ [0x5c]) row (some b) fields = .fail F R := by
  induction l with
  | nil =>
    intro _ row b fields
    refine ⟨fields, row, ?_⟩
    rw [List.nil_append, mono_loop_cons]
    simp
  | cons c rest ih =>
    intro h5l row b fields
    have h5 : c ≠ 0x5c := fun hc =>
      h5l (by rw [hc]; exact List.mem_cons_self _ _)
    have h5r : 0x5c ∉ rest := fun hm => h5l (List.mem_cons_of_mem c hm)
    by_cases h9 : c = 0x09
    · obtain ⟨F, R, hF⟩ := ih h5r (row ++ [0]) (row.length + 1)
        (fields ++ [some (b, row.length - b)])
      refine ⟨F, R, ?_⟩
      rw [List.cons_append, mono_loop_cons, if_pos h9]
      exact hF
    · obtain ⟨F, R, hF⟩ := ih h5r (row ++ [c]) b fields
      refine ⟨F, R, ?_⟩
      rw [List.cons_append, mono_loop_cons, if_neg h9, if_neg h5]
      exact hF

/-- Claim C5: for every raw line of bytes below 0x80 containing no
backslash (so no escapes arise), read_row splits the line on each tab
byte into one field view per tab-separated run, in left-to-right order,
each equal to that run's bytes and none of them null; in particular the
line "a<TAB>b<TAB>c" parses to exactly the three fields "a", "b", "c". -/
theorem read_row_splits_on_tabs :
    (∀ line : List Nat, (∀ x ∈ line, x < 0x80) → 0x5c ∉ line →
      row_fields next_seq_monobyte line = some ((tab_split line).map some)) ∧
    row_fields next_seq_monobyte [0x61, 0x09, 0x62, 0x09, 0x63] =
      some [some [0x61], some [0x62], some [0x63]] := by
  refine ⟨?_, by decide⟩
  intro line _ h5
  obtain ⟨F, R, hF, hmap⟩ :=
    mono_loop_plain line h5 [] 0 [] (by simp) (spans_le_nil 0)
  obtain ⟨f, fs, hts⟩ : ∃ f fs, tab_split line = f :: fs := by
    cases hts : tab_split line with
    | nil => exact absurd hts (tab_split_ne_nil line)
    | cons f fs => exact ⟨f, fs, rfl⟩
  have hpl : parse_line next_seq_monobyte line = .ok F R := by
    unfold parse_line
    rw [parse_loop_mono line (line.length + 1) 0 [] (some 0) [] (by omega),
      List.drop_zero, hF]
  unfold row_fields
  rw [hpl]
  dsimp only
  rw [hmap, hts]
  simp [prepend_head]

/-- Witness for claim C5 at the line "a<TAB>b". -/
theorem read_row_splits_on_tabs_witness :
    row_fields next_seq_monobyte [0x61, 0x09, 0x62] =
      some ((tab_split [0x61, 0x09, 0x62]).map some) :=
  read_row_splits_on_tabs.1 [0x61, 0x09, 0x62] (by decide) (by decide)

/-- Claim C6 counterexample: the line [0x5c, 0x5c] ends in a backslash
byte, yet read_row does not fail: the final backslash is the second byte
of an escaped-backslash sequence, and the line parses to one field
holding a single backslash. -/
theorem trailing_backslash_line_can_parse :
    row_fields next_seq_monobyte [0x5c, 0x5c] = some [some [0x5c]] ∧
    ([0x5c, 0x5c] : List Nat).getLast? = some 0x5c := by
  exact ⟨by decide, by decide⟩

/-- Claim C6 (amended): in read_row a backslash starts an escape:
backslash-b, -f, -n, -r, -t, -v emit the corresponding control byte
(backspace, form feed, line feed, carriage return, horizontal tab,
vertical tab) into the current field; backslash followed by any other
byte except N emits that byte literally; every line whose final byte is
a backslash that begins an escape (in particular any line containing no
other backslash before it) fails with a protocol error and yields no
row; and the line "a backslash t b" (backslash-t, not a tab byte)
parses to one single field containing a tab character. -/
theorem read_row_escape_handling :
    row_fields next_seq_monobyte [0x5c, 0x62] = some [some [0x08]] ∧
    row_fields next_seq_monobyte [0x5c, 0x66] = some [some [0x0c]] ∧
    row_fields next_seq_monobyte [0x5c, 0x6e] = some [some [0x0a]] ∧
    row_fields next_seq_monobyte [0x5c, 0x72] = some [some [0x0d]] ∧
    row_fields next_seq_monobyte [0x5c, 0x74] = some [some [0x09]] ∧
    row_fields next_seq_monobyte [0x5c, 0x76] = some [some [0x0b]] ∧
    (∀ c : Nat, c ≤ 0xff → c ≠ 0x4e →
      row_fields next_seq_monobyte [0x5c, c] =
        some [some [escape_control c]]) ∧
    (∀ l : List Nat, 0x5c ∉ l →
      row_fields next_seq_monobyte (l ++ [0x5c]) = none) ∧
    row_fields next_seq_monobyte [0x61, 0x5c, 0x74, 0x62] =
      some [some [0x61, 0x09, 0x62]] := by
  refine ⟨by decide, by decide, by decide, by decide, by decide, by decide,
    ?_, ?_, by decide⟩
  · intro c _ hN
    have hpl : parse_line next_seq_monobyte [0x5c, c] =
        .ok [some (0, 1)] [escape_control c, 0] := by
      unfold parse_line
      rw [parse_loop_mono _ _ _ _ _ _ (by simp), List.drop_zero]
      rw [mono_loop_cons, if_neg (by norm_num), if_pos rfl]
      dsimp only
      rw [if_neg hN]
      rw [List.nil_append, mono_loop_nil]
      dsimp only
      norm_num
    unfold row_fields
    rw [hpl]
    dsimp only
    simp [field_bytes]
  · intro l h5
    obtain ⟨F, R, hF⟩ := mono_loop_trailing_backslash l h5 [] 0 []
    unfold row_fields parse_line
    rw [parse_loop_mono _ _ _ _ _ _ (by simp), List.drop_zero, hF]

/-- Witness for claim C6: a self-escaped byte and a lone trailing
backslash, at concrete inputs. -/
theorem read_row_escape_handling_witness :
    row_fields next_seq_monobyte [0x5c, 0x41] =
      some [some [escape_control 0x41]] ∧
    row_fields next_seq_monobyte ([0x61] ++ [0x5c]) = none :=
  ⟨read_row_escape_handling.2.2.2.2.2.2.1 0x41 (by decide) (by decide),
   read_row_escape_handling.2.2.2.2.2.2.2.1 [0x61] (by decide)⟩

/-- Claim C7: backslash-N marks the current field as SQL NULL, yielding
a null field view when the field is closed; if any byte has already been
written into the current field the parse fails with a protocol error and
yields no row.  The line backslash-N tab "a" gives a null field then
"a"; the line "ab" backslash-N "c" fails. -/
theorem read_row_null_marker :
    row_fields next_seq_monobyte [0x5c, 0x4e] = some [none] ∧
    (∀ l : List Nat, l ≠ [] → (∀ x ∈ l, x < 0x80) → 0x09 ∉ l → 0x5c ∉ l →
      row_fields next_seq_monobyte (l ++ [0x5c, 0x4e]) = none) ∧
    row_fields next_seq_monobyte [0x5c, 0x4e, 0x09, 0x61] =
      some [none, some [0x61]] ∧
    row_fields next_seq_monobyte [0x61, 0x62, 0x5c, 0x4e, 0x63] = none := by
  refine ⟨by decide, ?_, by decide, by decide⟩
  intro l hne _ h9 h5
  have hlen : ¬ ((some 0 : Option Nat) = some l.length) := by
    simp only [Option.some_inj]
    intro h
    exact hne (List.length_eq_zero.mp h.symm)
  unfold row_fields parse_line
  rw [parse_loop_mono _ _ _ _ _ _ (by simp), List.drop_zero]
  rw [mono_loop_seek l h9 h5 [0x5c, 0x4e] [] (some 0) []]
  rw [List.nil_append]
  rw [mono_loop_cons, if_neg (by norm_num), if_pos rfl]
  dsimp only
  rw [if_pos rfl, if_neg hlen]

/-- Witness for claim C7: a null marker after the one-byte field "a". -/
theorem read_row_null_marker_witness :
    row_fields next_seq_monobyte ([0x61] ++ [0x5c, 0x4e]) = none :=
  read_row_null_marker.2.1 [0x61] (by decide) (by decide) (by decide)
    (by decide)

/-- Claim C10: bytes following a backslash-N marker before the next tab
or the end of the line raise no error: they are unescaped and written
into the row buffer, but the field is still reported as a null field
view, so they are absent from every returned field.  Concretely the line
backslash-N "c" parses to one null field while the row buffer holds the
byte 0x63. -/
theorem null_marker_swallows_trailing_bytes :
    (∀ l : List Nat, (∀ x ∈ l, x < 0x80) → 0x09 ∉ l → 0x5c ∉ l →
      parse_line next_seq_monobyte (0x5c :: 0x4e :: l) = .ok [none] l) ∧
    parse_line next_seq_monobyte [0x5c, 0x4e, 0x63] = .ok [none] [0x63] ∧
    row_fields next_seq_monobyte [0x5c, 0x4e, 0x63] = some [none] := by
  refine ⟨?_, by decide, by decide⟩
  intro l _ h9 h5
  unfold parse_line
  rw [parse_loop_mono _ _ _ _ _ _ (by simp), List.drop_zero]
  rw [mono_loop_cons, if_neg (by norm_num), if_pos rfl]
  dsimp only
  rw [if_pos rfl]
  rw [if_pos (show (some 0 : Option Nat) = some ([] : List Nat).length from rfl)]
  have hseek := mono_loop_seek l h9 h5 [] [] none []
  rw [List.append_nil, List.nil_append] at hseek
  rw [hseek, mono_loop_nil]
  dsimp only
  rw [List.nil_append]

/-- Witness for claim C10 at the line backslash-N "c". -/
theorem null_marker_swallows_trailing_bytes_witness :
    parse_line next_seq_monobyte (0x5c :: 0x4e :: [0x63]) = .ok [none] [0x63] :=
  null_marker_swallows_trailing_bytes.1 [0x63] (by decide) (by decide)
    (by decide)

/-- The parse loop writes at most one byte per byte consumed, so at
most `ln.length + 1` bytes in total once the final terminator is
counted: an invariant of `parse_loop` for any scanner whose successful
results advance and stay inside the line. -/
theorem parse_loop_write_bound
    (scan : List Nat → Nat → SeqResult) (ln : List Nat)
    (hscan : ∀ i e, i < ln.length → scan ln i = .ok e →
      i < e ∧ e ≤ ln.length) :
    ∀ fuel read row fb fields, row.length ≤ read → read ≤ ln.length →
      (parse_loop scan ln fuel read row fb fields).rowLen ≤
        ln.length + 1 := by
  intro fuel
  induction fuel with
  | zero =>
    intro read row fb fields hw hr
    simp only [parse_loop, ParseOut.rowLen]
    omega
  | succ fuel ih =>
    intro read row fb fields hw hr
    by_cases h : read < ln.length
    · cases hs : scan ln read with
      | eof =>
        simp only [parse_loop, if_pos h, hs, ParseOut.rowLen]
        omega
      | err a b c =>
        simp only [parse_loop, if_pos h, hs, ParseOut.rowLen]
        omega
      | ok e =>
        obtain ⟨he1, he2⟩ := hscan read e h hs
        simp only [parse_loop, if_pos h, hs]
        by_cases h1 : e = read + 1
        · rw [if_pos h1]
          by_cases h9 : get_byte ln read = 0x09
          · rw [if_pos h9]
            cases fb with
            | none =>
              exact ih (read + 1) row (some row.length) (fields ++ [none])
                (by omega) (by omega)
            | some b =>
              exact ih (read + 1) (row ++ [0]) (some (row.length + 1))
                (fields ++ [some (b, row.length - b)])
                (by simp; omega) (by omega)
          · rw [if_neg h9]
            by_cases h5 : get_byte ln read = 0x5c
            · rw [if_pos h5]
              by_cases hend : read + 1 ≥ ln.length
              · rw [if_pos hend]
                simp only [ParseOut.rowLen]
                omega
              · rw [if_neg hend]
                by_cases hn : get_byte ln (read + 1) = 0x4e
                · rw [if_pos hn]
                  by_cases hfb : fb = some row.length
                  · rw [if_pos hfb]
                    exact ih (read + 2) row none fields (by omega) (by omega)
                  · rw [if_neg hfb]
                    simp only [ParseOut.rowLen]
                    omega
                · rw [if_neg hn]
                  exact ih (read + 2)
                    (row ++ [escape_control (get_byte ln (read + 1))])
                    fb fields (by simp; omega) (by omega)
            · rw [if_neg h5]
              exact ih (read + 1) (row ++ [get_byte ln read]) fb fields
                (by simp; omega) (by omega)
        · rw [if_neg h1]
          refine ih e (row ++ (ln.drop read).take (e - read)) fb fields
            ?_ (by omega)
          simp only [List.length_append, List.length_take, List.length_drop]
          omega
    · simp only [parse_loop, if_neg h]
      cases fb with
      | none =>
        simp only [ParseOut.rowLen]
        omega
      | some b =>
        simp only [ParseOut.rowLen, List.length_append, List.length_cons,
          List.length_nil]
        omega

/-- Claim C8: the row buffer is resized to `raw_line_length + 1` before
parsing, and the total number of bytes `parse_line` writes into it
(unescaped field bytes plus all NUL terminators) never exceeds that
bound, on well-formed and ill-formed lines alike, up to the point an
error is raised.  Holds for every scanner whose successful result
advances past its start offset and stays within the buffer — true of
every scanner in the source. -/
theorem parse_line_write_bound
    (scan : List Nat → Nat → SeqResult) (ln : List Nat)
    (hscan : ∀ i e, i < ln.length → scan ln i = .ok e →
      i < e ∧ e ≤ ln.length) :
    (parse_line scan ln).rowLen ≤ ln.length + 1 := by
  unfold parse_line
  exact parse_loop_write_bound scan ln hscan (ln.length + 1) 0 [] (some 0) []
    (by simp) (by omega)

/-- Witness for claim C8 under the MONOBYTE scanner at the line
"a<TAB>b". -/
theorem parse_line_write_bound_witness :
    (parse_line next_seq_monobyte [0x61, 0x09, 0x62]).rowLen ≤
      ([0x61, 0x09, 0x62] : List Nat).length + 1 :=
  parse_line_write_bound next_seq_monobyte [0x61, 0x09, 0x62]
    (by
      intro i e hi hs
      simp only [List.length_cons, List.length_nil] at hi ⊢
      unfold next_seq_monobyte at hs
      simp only [List.length_cons, List.length_nil] at hs
      rw [if_neg (by omega)] at hs
      injection hs with h
      omega)

/-- Stream-level state of `pqxx::stream_from`: the `m_finished` flag,
the current `m_fields` (materialized field views of the last parsed
row), and the lines the external line source has yet to deliver
(`get_raw_line` pops one; an exhausted source delivers the end-of-data
sentinel, a null buffer). -/
structure StreamState where
  m_finished : Bool
  m_fields : List (Option (List Nat))
  src : List (List Nat)
  deriving DecidableEq

/-- `read_row`: runs `parse_line` (which returns immediately on a
finished stream) and then returns the null pointer when finished, the
fields otherwise.  The output is `Except.ok none` for end-of-data,
`Except.ok (some fs)` for a parsed row, `Except.error ()` for a thrown
parse failure. -/
def stream_read_row (scan : List Nat → Nat → SeqResult) (s : StreamState) :
    StreamState × Except Unit (Option (List (Option (List Nat)))) :=
  if s.m_finished then (s, .ok none)
  else
    match s.src with
    | [] =>
      (match parse_line scan [] with
       | .ok F R =>
         ({ m_finished := true, m_fields := F.map (field_bytes R),
            src := [] }, .ok none)
       | .fail F R =>
         ({ m_finished := true, m_fields := F.map (field_bytes R),
            src := [] }, .error ()))
    | l :: rest =>
      (match parse_line scan l with
       | .ok F R =>
         ({ m_finished := false, m_fields := F.map (field_bytes R),
            src := rest }, .ok (some (F.map (field_bytes R))))
       | .fail F R =>
         ({ m_finished := false, m_fields := F.map (field_bytes R),
            src := rest }, .error ()))

/-- `close()`: flips `m_finished` to true exactly once; the
unregistration with the owning session is the external side effect, not
modelled here. -/
def stream_close (s : StreamState) : StreamState :=
  if s.m_finished then s else { s with m_finished := true }

/-- The operations a caller can perform on the stream. -/
inductive StreamOp where
  | readRow : StreamOp
  | closeOp : StreamOp

/-- Run a sequence of stream operations, dropping the outputs. -/
def stream_run (scan : List Nat → Nat → SeqResult) :
    List StreamOp → StreamState → StreamState
  | [], s => s
  | op :: ops, s =>
    stream_run scan ops
      (match op with
       | .readRow => (stream_read_row scan s).1
       | .closeOp => stream_close s)

/-- Claim C9: the finished flag is a one-way terminal state: when it is
true, read_row returns end-of-data immediately with the whole state —
in particular the pending line source — untouched, and no sequence of
read_row/close operations ever makes the flag false again. -/
theorem finished_is_terminal (scan : List Nat → Nat → SeqResult) :
    (∀ s : StreamState, s.m_finished = true →
      stream_read_row scan s = (s, .ok none)) ∧
    (∀ ops : List StreamOp, ∀ s : StreamState, s.m_finished = true →
      (stream_run scan ops s).m_finished = true) := by
  constructor
  · intro s h
    unfold stream_read_row
    rw [if_pos h]
  · intro ops
    induction ops with
    | nil => intro s h; exact h
    | cons op ops ih =>
      intro s h
      cases op with
      | readRow =>
        have hrr : stream_read_row scan s = (s, .ok none) := by
          unfold stream_read_row
          rw [if_pos h]
        simp only [stream_run, hrr]
        exact ih s h
      | closeOp =>
        have hcl : stream_close s = s := by
          unfold stream_close
          rw [if_pos h]
        simp only [stream_run, hcl]
        exact ih s h

/-- Witness for claim C9 on a finished stream that still has a line
queued: read_row leaves it untouched and a read-then-close sequence
keeps the flag set. -/
theorem finished_is_terminal_witness :
    stream_read_row next_seq_monobyte
        { m_finished := true, m_fields := [], src := [[0x61]] } =
      ({ m_finished := true, m_fields := [], src := [[0x61]] }, .ok none) ∧
    (stream_run next_seq_monobyte [StreamOp.readRow, StreamOp.closeOp]
        { m_finished := true, m_fields := [], src := [[0x61]] }).m_finished =
      true :=
  ⟨(finished_is_terminal next_seq_monobyte).1 _ rfl,
   (finished_is_terminal next_seq_monobyte).2 _ _ rfl⟩
